import Mathlib

/-
Shallow embedding of src/generic_heap/Heap.hh (template class Heap<T, Compare>).

Modelling conventions:
* The vector<T> container is a Lean List, the comparator a Bool-valued
  binary predicate lt (the C++ default Compare = less<T> is the function
  less below).
* container.at(i) is modelled by container_at (getD with a default); every
  reachable use is guarded in bounds, which the no-throw theorems make
  precise.
* Indices are int32_t in the source; they are modelled as Nat, which agrees
  with the source for all container sizes below 2^31.  The two places where
  the int32/size_type arithmetic is observable are modelled exactly:
  the initial loop index of heapify (size() - 1 underflows the unsigned
  size type and is then narrowed to int32_t: heapifyInit), and the
  truncating-division parent index of the root (get_parent_index_i32).
* bubble_up's while loop does not terminate for every comparator (at index
  0 the source compares the root with itself, and a reflexive comparator
  makes it self-swap forever, leaving the state unchanged), so the loop is
  modelled with fuel, returning none when the fuel is exhausted.  An index
  strictly decreases on every iteration taken from an index above 0, and an
  iteration taken at index 0 repeats the identical state, so a run from
  index i either finishes within i+1 guard evaluations or never finishes:
  fuel i+1 decides termination exactly (bubble_upLoop_fuel_mono below makes
  the threshold irrelevant on the terminating side).
* The throwing accessors left_child / right_child / parent are modelled in
  Except (error IndexUnavailable models the out_of_range throw); the
  operations that call them have Except-valued embeddings (bubble_downE,
  bubble_upLoopE, is_heapE, pushE, popE, heapifyE) which are proved to
  never produce an error, and plain total versions used everywhere else.
* top() returns container.front() with no emptiness check; front() on an
  empty vector is an undefined out-of-bounds access, modelled as the
  distinguished error OutOfBoundsAccess.  Nothing in the source ever
  raises an EmptyHeap condition; the constructor exists because the
  specification names it.
-/

namespace GenericHeap

/-- Failure conditions of the model: IndexUnavailable models the
out_of_range throw of the child/parent accessors, OutOfBoundsAccess models
the undefined behaviour of front() on an empty vector, EmptyHeap is the
condition named by the specification (never produced by the source). -/
inductive HeapErr : Type where
  | IndexUnavailable : HeapErr
  | EmptyHeap : HeapErr
  | OutOfBoundsAccess : HeapErr
deriving DecidableEq

section Defs

variable {α : Type} [Inhabited α] (lt : α → α → Bool)

/-- get_left_child_index: 2 * index + 1. -/
def get_left_child_index (i : Nat) : Nat := 2 * i + 1

/-- get_right_child_index: 2 * (index + 1). -/
def get_right_child_index (i : Nat) : Nat := 2 * (i + 1)

/-- get_parent_index: (index - 1) / 2.  On Nat this gives 0 at index 0,
which agrees with the C++ truncating division (0 - 1) / 2 = 0. -/
def get_parent_index (i : Nat) : Nat := (i - 1) / 2

/-- The source's (index - 1) / 2 on int32_t: division truncating toward
zero, Int.tdiv in Lean. -/
def get_parent_index_i32 (i : Int) : Int := Int.tdiv (i - 1) 2

/-- has_left_child: get_left_child_index(index) < size. -/
def has_left_child (i n : Nat) : Bool := get_left_child_index i < n

/-- has_right_child: get_right_child_index(index) < size. -/
def has_right_child (i n : Nat) : Bool := get_right_child_index i < n

/-- has_parent: index < size (the source's literal condition, not i > 0). -/
def has_parent (i n : Nat) : Bool := i < n

/-- container.at(i); all reachable uses are in bounds. -/
def container_at (c : List α) (i : Nat) : α := c.getD i default

/-- std::swap(container.at(i), container.at(j)). -/
def swap (c : List α) (i j : Nat) : List α :=
  (c.set i (container_at c j)).set j (container_at c i)

/-- left_child accessor: throws (IndexUnavailable) unless has_left_child. -/
def left_child (c : List α) (i : Nat) : Except HeapErr α :=
  if has_left_child i c.length then .ok (container_at c (get_left_child_index i))
  else .error .IndexUnavailable

/-- right_child accessor: throws (IndexUnavailable) unless has_right_child. -/
def right_child (c : List α) (i : Nat) : Except HeapErr α :=
  if has_right_child i c.length then .ok (container_at c (get_right_child_index i))
  else .error .IndexUnavailable

/-- parent accessor: throws (IndexUnavailable) unless has_parent. -/
def parent (c : List α) (i : Nat) : Except HeapErr α :=
  if has_parent i c.length then .ok (container_at c (get_parent_index i))
  else .error .IndexUnavailable

/-- The while loop of bubble_up, with fuel (see the header comment: fuel
i+1 decides termination of the source loop started at index i exactly). -/
def bubble_upLoop : Nat → List α → Nat → Option (List α)
  | 0, _, _ => none
  | fuel + 1, c, i =>
    if has_parent i c.length && lt (container_at c (get_parent_index i)) (container_at c i) then
      bubble_upLoop fuel (swap c i (get_parent_index i)) (get_parent_index i)
    else some c

/-- bubble_up(index): the source's while loop; some means the loop
terminates with that final container, none that it runs forever. -/
def bubble_up (c : List α) (i : Nat) : Option (List α) :=
  bubble_upLoop lt (i + 1) c i

/-- bubble_down(index): while there is a left child, pick the swappable
child (the right one when has_right_child and comparator(left, right)),
swap while comparator(current, swappable) holds, else break. -/
def bubble_down (c : List α) (i : Nat) : List α :=
  if h1 : has_left_child i c.length then
    if h2 : has_right_child i c.length &&
        lt (container_at c (get_left_child_index i)) (container_at c (get_right_child_index i)) then
      if lt (container_at c i) (container_at c (get_right_child_index i)) then
        bubble_down (swap c i (get_right_child_index i)) (get_right_child_index i)
      else c
    else
      if lt (container_at c i) (container_at c (get_left_child_index i)) then
        bubble_down (swap c i (get_left_child_index i)) (get_left_child_index i)
      else c
  else c
termination_by c.length - i
decreasing_by
  · simp only [swap, List.length_set, has_left_child, has_right_child,
      get_left_child_index, get_right_child_index, decide_eq_true_eq,
      Bool.and_eq_true] at h1 h2 ⊢
    omega
  · simp only [swap, List.length_set, has_left_child, has_right_child,
      get_left_child_index, get_right_child_index, decide_eq_true_eq,
      Bool.and_eq_true] at h1 h2 ⊢
    omega

/-- The descending for loop of heapify: for (int32_t i = init; i >= 0; i--)
bubble_down(i). -/
def heapifyLoop (c : List α) (i : Int) : List α :=
  if i < 0 then c
  else heapifyLoop (bubble_down lt c i.toNat) (i - 1)
termination_by (i + 1).toNat
decreasing_by
  omega

/-- The initial index of heapify's loop: container.size() - 1 computed in
the 64-bit unsigned size type (wrapping), then narrowed to int32_t
(two's complement). -/
def heapifyInit (n : Nat) : Int :=
  if (n + (2 ^ 64 - 1)) % 2 ^ 64 % 2 ^ 32 < 2 ^ 31 then
    ((n + (2 ^ 64 - 1)) % 2 ^ 64 % 2 ^ 32 : Nat)
  else ((n + (2 ^ 64 - 1)) % 2 ^ 64 % 2 ^ 32 : Nat) - 2 ^ 32

/-- heapify on the incoming collection: clear() and assign() replace the
contents with the collection in its given order, then the descending
bubble_down loop runs. -/
def heapify (xs : List α) : List α :=
  heapifyLoop lt xs (heapifyInit xs.length)

/-- The public heapify member: the previous container contents are cleared
and play no role. -/
def heapifyOp (_c : List α) (xs : List α) : List α := heapify lt xs

/-- push(value): push_back then bubble_up(size() - 1). -/
def push (v : α) (c : List α) : Option (List α) :=
  bubble_up lt (c ++ [v]) ((c ++ [v]).length - 1)

/-- pop(): if not empty, swap front and back, pop_back, bubble_down(0). -/
def pop (c : List α) : List α :=
  if c.isEmpty then c
  else bubble_down lt ((swap c 0 (c.length - 1)).dropLast) 0

/-- empty(). -/
def empty (c : List α) : Bool := c.isEmpty

/-- size(). -/
def size (c : List α) : Nat := c.length

/-- top(): returns container.front() with no emptiness check; on an empty
container this is an undefined out-of-bounds access. -/
def top (c : List α) : Except HeapErr α :=
  match c with
  | [] => .error .OutOfBoundsAccess
  | x :: _ => .ok x

/-- The for loop of is_heap(): scan indices upward, returning false on
the first index whose left or right child violates the comparator. -/
def is_heapLoop (c : List α) (i : Nat) : Bool :=
  if _h : i < c.length then
    if has_left_child i c.length &&
        lt (container_at c i) (container_at c (get_left_child_index i)) then false
    else if has_right_child i c.length &&
        lt (container_at c i) (container_at c (get_right_child_index i)) then false
    else is_heapLoop c (i + 1)
  else true
termination_by c.length - i

/-- is_heap(): scan every index; false on the first violated edge. -/
def is_heap (c : List α) : Bool := is_heapLoop lt c 0

/-- A public operation of the heap API. -/
inductive Op (α : Type) : Type where
  | push : α → Op α
  | heapify : List α → Op α
  | pop : Op α

/-- Apply one public operation (none records a non-terminating push). -/
def applyOp (c : List α) : Op α → Option (List α)
  | .push v => push lt v c
  | .heapify xs => some (heapifyOp lt c xs)
  | .pop => some (pop lt c)

/-- Run a sequence of public operations from a state. -/
def runOps (c : List α) : List (Op α) → Option (List α)
  | [] => some c
  | op :: ops => (applyOp lt c op).bind (fun c2 => runOps c2 ops)

/-- j successive pop() calls. -/
def popN : Nat → List α → List α
  | 0, c => c
  | j + 1, c => popN j (pop lt c)

/-- Repeatedly read top() then pop() until the heap is empty (fuelled by
the size, which bounds the number of iterations). -/
def drainLoop : Nat → List α → List α
  | 0, _ => []
  | fuel + 1, c =>
    match top c with
    | .error _ => []
    | .ok v => v :: drainLoop fuel (pop lt c)

/-- The sequence obtained by top()/pop() until empty. -/
def drain (c : List α) : List α := drainLoop lt c.length c

/-- bubble_down with the throwing accessors left_child / right_child kept
as Except computations, exactly as the source calls them: the loop
condition `has_right_child(i) && comparator(left_child(i), right_child(i))`
calls both accessors only when has_right_child holds. -/
def bubble_downE (c : List α) (i : Nat) : Except HeapErr (List α) :=
  if h1 : has_left_child i c.length then
    if h2 : has_right_child i c.length then
      match left_child c i, right_child c i with
      | .ok l, .ok r =>
        if lt l r then
          if lt (container_at c i) (container_at c (get_right_child_index i)) then
            bubble_downE (swap c i (get_right_child_index i)) (get_right_child_index i)
          else .ok c
        else
          if lt (container_at c i) (container_at c (get_left_child_index i)) then
            bubble_downE (swap c i (get_left_child_index i)) (get_left_child_index i)
          else .ok c
      | .error e, _ => .error e
      | _, .error e => .error e
    else
      if lt (container_at c i) (container_at c (get_left_child_index i)) then
        bubble_downE (swap c i (get_left_child_index i)) (get_left_child_index i)
      else .ok c
  else .ok c
termination_by c.length - i
decreasing_by
  · simp only [swap, List.length_set, has_left_child, has_right_child,
      get_left_child_index, get_right_child_index, decide_eq_true_eq] at h1 h2 ⊢
    omega
  · simp only [swap, List.length_set, has_left_child, has_right_child,
      get_left_child_index, get_right_child_index, decide_eq_true_eq] at h1 h2 ⊢
    omega
  · simp only [swap, List.length_set, has_left_child,
      get_left_child_index, decide_eq_true_eq] at h1 ⊢
    omega

/-- The bubble_up while loop with the throwing parent accessor kept as an
Except computation (called only after the has_parent short-circuit). -/
def bubble_upLoopE : Nat → List α → Nat → Option (Except HeapErr (List α))
  | 0, _, _ => none
  | fuel + 1, c, i =>
    if has_parent i c.length then
      match parent c i with
      | .error e => some (.error e)
      | .ok p =>
        if lt p (container_at c i) then
          bubble_upLoopE fuel (swap c i (get_parent_index i)) (get_parent_index i)
        else some (.ok c)
    else some (.ok c)

/-- push with the throwing accessors kept. -/
def pushE (v : α) (c : List α) : Option (Except HeapErr (List α)) :=
  bubble_upLoopE lt (((c ++ [v]).length - 1) + 1) (c ++ [v]) ((c ++ [v]).length - 1)

/-- The is_heap loop with the throwing accessors kept: each comparator
condition short-circuits on the corresponding has_* check. -/
def is_heapLoopE (c : List α) (i : Nat) : Except HeapErr Bool :=
  if _h : i < c.length then
    match (if has_left_child i c.length then
        (left_child c i).map (fun l => lt (container_at c i) l) else .ok false) with
    | .error e => .error e
    | .ok true => .ok false
    | .ok false =>
      match (if has_right_child i c.length then
          (right_child c i).map (fun r => lt (container_at c i) r) else .ok false) with
      | .error e => .error e
      | .ok true => .ok false
      | .ok false => is_heapLoopE c (i + 1)
  else .ok true
termination_by c.length - i

/-- is_heap with the throwing accessors kept. -/
def is_heapE (c : List α) : Except HeapErr Bool := is_heapLoopE lt c 0

/-- The heapify loop with the throwing accessors kept. -/
def heapifyLoopE (c : List α) (i : Int) : Except HeapErr (List α) :=
  if i < 0 then .ok c
  else
    match bubble_downE lt c i.toNat with
    | .error e => .error e
    | .ok c2 => heapifyLoopE c2 (i - 1)
termination_by (i + 1).toNat
decreasing_by
  omega

/-- heapify with the throwing accessors kept. -/
def heapifyE (xs : List α) : Except HeapErr (List α) :=
  heapifyLoopE lt xs (heapifyInit xs.length)

/-- pop with the throwing accessors kept. -/
def popE (c : List α) : Except HeapErr (List α) :=
  if c.isEmpty then .ok c
  else bubble_downE lt ((swap c 0 (c.length - 1)).dropLast) 0

end Defs

/-- The default comparator less<T>: the natural strict less-than. -/
def less {α : Type} [LinearOrder α] (a b : α) : Bool := decide (a < b)

/-- A strict weak ordering, the requirement the C++ library places on a
Compare predicate: irreflexive, transitive, with transitive negation. -/
structure IsSWO {α : Type} (lt : α → α → Bool) : Prop where
  irrefl : ∀ a, lt a a = false
  trans : ∀ a b c, lt a b = true → lt b c = true → lt a c = true
  negtrans : ∀ a b c, lt a b = false → lt b c = false → lt a c = false

theorem IsSWO.asymm {α : Type} {lt : α → α → Bool} (h : IsSWO lt) (a b : α)
    (hab : lt a b = true) : lt b a = false := by
  cases hba : lt b a with
  | false => rfl
  | true => have := h.trans a b a hab hba; rw [h.irrefl a] at this; cases this

theorem less_isSWO {α : Type} [LinearOrder α] : IsSWO (less (α := α)) := by
  constructor
  · intro a; simp [less]
  · intro a b c hab hbc
    simp only [less, decide_eq_true_eq] at hab hbc ⊢
    exact lt_trans hab hbc
  · intro a b c hab hbc
    simp only [less, decide_eq_false_iff_not, not_lt] at hab hbc ⊢
    exact le_trans hbc hab

section Lemmas

variable {α : Type} [Inhabited α]

theorem container_at_eq_getElem (c : List α) (i : Nat) (h : i < c.length) :
    container_at c i = c.get ⟨i, h⟩ := by
  simp [container_at, List.getD_eq_getElem?_getD, List.getElem?_eq_getElem h]

theorem container_at_set_self (c : List α) (i : Nat) (a : α) (h : i < c.length) :
    container_at (c.set i a) i = a := by
  simp [container_at, List.getD_eq_getElem?_getD, List.getElem?_set_self, h]

theorem container_at_set_ne (c : List α) (i j : Nat) (a : α) (h : i ≠ j) :
    container_at (c.set i a) j = container_at c j := by
  simp [container_at, List.getD_eq_getElem?_getD, List.getElem?_set_ne h]

theorem swap_length (c : List α) (i j : Nat) : (swap c i j).length = c.length := by
  simp [swap]

theorem container_at_swap_left (c : List α) (i j : Nat) (hi : i < c.length)
    (hj : j < c.length) : container_at (swap c i j) i = container_at c j := by
  by_cases hij : i = j
  · subst hij
    rw [swap, container_at_set_self _ _ _ (by simpa using hj)]
  · rw [swap, container_at_set_ne _ _ _ _ (Ne.symm hij), container_at_set_self _ _ _ hi]

theorem container_at_swap_right (c : List α) (i j : Nat) (hj : j < c.length) :
    container_at (swap c i j) j = container_at c i := by
  rw [swap, container_at_set_self _ _ _ (by simpa using hj)]

theorem container_at_swap_other (c : List α) (i j k : Nat) (hki : k ≠ i) (hkj : k ≠ j) :
    container_at (swap c i j) k = container_at c k := by
  rw [swap, container_at_set_ne _ _ _ _ (Ne.symm hkj), container_at_set_ne _ _ _ _ (Ne.symm hki)]

theorem cons_set_perm (t : List α) (x : α) : ∀ (m : Nat), m < t.length →
    ((container_at t m) :: t.set m x).Perm (x :: t) := by
  induction t with
  | nil => intro m hm; cases hm
  | cons y s ih =>
    intro m hm
    cases m with
    | zero =>
      have h0 : container_at (y :: s) 0 = y := container_at_eq_getElem _ _ (by simp)
      rw [h0]
      simpa [List.set] using List.Perm.swap x y s
    | succ m =>
      have hms : m < s.length := by simpa using hm
      have h1 : container_at (y :: s) (m + 1) = container_at s m := by
        rw [container_at_eq_getElem _ _ hm, container_at_eq_getElem _ _ hms]
        rfl
      rw [h1, List.set]
      have t1 : (container_at s m :: y :: s.set m x).Perm
          (y :: container_at s m :: s.set m x) := List.Perm.swap y (container_at s m) _
      have t2 : (y :: container_at s m :: s.set m x).Perm (y :: x :: s) :=
        List.Perm.cons y (ih m hms)
      exact t1.trans (t2.trans (List.Perm.swap x y s))

theorem swap_perm (c : List α) : ∀ (i j : Nat), i < c.length → j < c.length →
    (swap c i j).Perm c := by
  induction c with
  | nil => intro i j hi _; cases hi
  | cons y t ih =>
    intro i j hi hj
    cases i with
    | zero =>
      cases j with
      | zero =>
        have h0 : container_at (y :: t) 0 = y := container_at_eq_getElem _ _ (by simp)
        simp [swap, h0, List.set]
      | succ m =>
        have hmt : m < t.length := by simpa using hj
        have h0 : container_at (y :: t) 0 = y := container_at_eq_getElem _ _ (by simp)
        have h1 : container_at (y :: t) (m + 1) = container_at t m := by
          rw [container_at_eq_getElem _ _ hj, container_at_eq_getElem _ _ hmt]; rfl
        rw [swap, h0, h1, List.set, List.set]
        exact cons_set_perm t y m hmt
    | succ i2 =>
      cases j with
      | zero =>
        have h0 : container_at (y :: t) 0 = y := container_at_eq_getElem _ _ (by simp)
        have hit : i2 < t.length := by simpa using hi
        have h1 : container_at (y :: t) (i2 + 1) = container_at t i2 := by
          rw [container_at_eq_getElem _ _ hi, container_at_eq_getElem _ _ hit]; rfl
        rw [swap, h0, h1, List.set, List.set]
        exact cons_set_perm t y i2 hit
      | succ j2 =>
        have hit : i2 < t.length := by simpa using hi
        have hjt : j2 < t.length := by simpa using hj
        have h1 : container_at (y :: t) (i2 + 1) = container_at t i2 := by
          rw [container_at_eq_getElem _ _ hi, container_at_eq_getElem _ _ hit]; rfl
        have h2 : container_at (y :: t) (j2 + 1) = container_at t j2 := by
          rw [container_at_eq_getElem _ _ hj, container_at_eq_getElem _ _ hjt]; rfl
        rw [swap, h1, h2, List.set, List.set]
        exact List.Perm.cons y (ih i2 j2 hit hjt)

theorem container_at_append_left (c : List α) (v : α) (j : Nat) (h : j < c.length) :
    container_at (c ++ [v]) j = container_at c j := by
  rw [container_at_eq_getElem _ _ (by simp; omega), container_at_eq_getElem _ _ h]
  simp [List.getElem_append_left h]

theorem container_at_append_last (c : List α) (v : α) :
    container_at (c ++ [v]) c.length = v := by
  rw [container_at_eq_getElem _ _ (by simp)]
  simp

theorem container_at_dropLast (c : List α) (j : Nat) (h : j + 1 < c.length) :
    container_at c.dropLast j = container_at c j := by
  rw [container_at_eq_getElem _ _ (by simp [List.length_dropLast]; omega),
    container_at_eq_getElem _ _ (by omega)]
  simp [List.getElem_dropLast]

/-- k is the index of a child of j in a container of size n. -/
def isChildIdx (j k n : Nat) : Prop :=
  (k = get_left_child_index j ∨ k = get_right_child_index j) ∧ k < n

/-- The heap-order property restricted to parents at index b or above:
no parent from b on compares true against any of its children. -/
def HeapFrom (lt : α → α → Bool) (b : Nat) (c : List α) : Prop :=
  ∀ j k, b ≤ j → isChildIdx j k c.length →
    lt (container_at c j) (container_at c k) = false

/-- The heap-order property: no parent compares true against a child. -/
def HeapProp (lt : α → α → Bool) (c : List α) : Prop := HeapFrom lt 0 c

theorem isChildIdx_parent (j k n : Nat) (h : isChildIdx j k n) :
    j = get_parent_index k := by
  obtain ⟨hk, _⟩ := h
  simp only [get_left_child_index, get_right_child_index] at hk
  simp only [get_parent_index]
  omega

theorem isChildIdx_lt (j k n : Nat) (h : isChildIdx j k n) : j < k := by
  obtain ⟨hk, _⟩ := h
  simp only [get_left_child_index, get_right_child_index] at hk
  omega

theorem isChildIdx_of_pos (k n : Nat) (h0 : 0 < k) (hn : k < n) :
    isChildIdx (get_parent_index k) k n := by
  constructor
  · simp only [get_left_child_index, get_right_child_index, get_parent_index]
    omega
  · exact hn

theorem bubble_down_length (lt : α → α → Bool) (c : List α) (i : Nat) :
    (bubble_down lt c i).length = c.length := by
  induction c, i using bubble_down.induct lt with
  | case1 c i h1 h2 h3 ih => rw [bubble_down]; simp [h1, h2, h3, ih, swap_length]
  | case2 c i h1 h2 h3 => rw [bubble_down]; simp [h1, h2, h3]
  | case3 c i h1 h2 h3 ih => rw [bubble_down]; simp [h1, h2, h3, ih, swap_length]
  | case4 c i h1 h2 h3 => rw [bubble_down]; simp [h1, h2, h3]
  | case5 c i h1 => rw [bubble_down]; simp [h1]

theorem bubble_down_perm (lt : α → α → Bool) (c : List α) (i : Nat) :
    (bubble_down lt c i).Perm c := by
  induction c, i using bubble_down.induct lt with
  | case1 c i h1 h2 h3 ih =>
    rw [bubble_down]; simp only [h1, h2, h3, dite_true, if_true]
    have hR : get_right_child_index i < c.length := by
      simp only [has_right_child, decide_eq_true_eq, Bool.and_eq_true] at h2
      exact h2.1
    have hi : i < c.length := by
      simp only [get_right_child_index] at hR; omega
    exact ih.trans (swap_perm c i (get_right_child_index i) hi hR)
  | case2 c i h1 h2 h3 => rw [bubble_down]; simp [h1, h2, h3]
  | case3 c i h1 h2 h3 ih =>
    rw [bubble_down]; simp only [h1, h2, h3, dite_true, if_true]
    have hL : get_left_child_index i < c.length := by
      simpa [has_left_child, decide_eq_true_eq] using h1
    have hi : i < c.length := by
      simp only [get_left_child_index] at hL; omega
    have := ih.trans (swap_perm c i (get_left_child_index i) hi hL)
    simpa [h2] using this
  | case4 c i h1 h2 h3 => rw [bubble_down]; simp [h1, h2, h3]
  | case5 c i h1 => rw [bubble_down]; simp [h1]

/-- The invariants carried through one swap of bubble_down: after swapping
position i with its chosen child sw, every heap edge with a parent at or
above b holds except possibly at sw itself. -/
theorem down_step_main {lt : α → α → Bool} (hS : IsSWO lt) (b i sw : Nat)
    (c : List α) (hsw : isChildIdx i sw c.length) (hbi : b ≤ i)
    (hmain : ∀ j k, b ≤ j → j ≠ i → isChildIdx j k c.length →
      lt (container_at c j) (container_at c k) = false)
    (haux : b < i → ∀ k, isChildIdx i k c.length →
      lt (container_at c (get_parent_index i)) (container_at c k) = false)
    (hbest : ∀ k, isChildIdx i k c.length → k ≠ sw →
      lt (container_at c sw) (container_at c k) = false)
    (hguard : lt (container_at c i) (container_at c sw) = true) :
    ∀ j k, b ≤ j → j ≠ sw → isChildIdx j k (swap c i sw).length →
      lt (container_at (swap c i sw) j) (container_at (swap c i sw) k) = false := by
  have hswn : sw < c.length := hsw.2
  have hisw : i < sw := isChildIdx_lt _ _ _ hsw
  have hin : i < c.length := lt_trans hisw hswn
  intro j k hbj hjsw hkid
  rw [swap_length] at hkid
  have hjk : j < k := isChildIdx_lt _ _ _ hkid
  by_cases hji : j = i
  · subst hji
    rw [container_at_swap_left c j sw hin hswn]
    by_cases hksw : k = sw
    · subst hksw
      rw [container_at_swap_right c j k hswn]
      exact hS.asymm _ _ hguard
    · rw [container_at_swap_other c j sw k (by omega) hksw]
      exact hbest k hkid hksw
  · -- j is untouched by the swap
    rw [container_at_swap_other c i sw j hji hjsw]
    by_cases hki : k = i
    · -- k = i: then j is the parent of i, and the grandparent condition applies
      subst hki
      have hj : j = get_parent_index k := isChildIdx_parent _ _ _ hkid
      rw [container_at_swap_left c k sw hin hswn, hj]
      exact haux (by omega) sw hsw
    · by_cases hksw : k = sw
      · -- k = sw: then j would be the parent of sw, i.e. j = i, excluded
        exfalso
        subst hksw
        have h1 : j = get_parent_index k := isChildIdx_parent _ _ _ hkid
        have h2 : i = get_parent_index k := isChildIdx_parent _ _ _ hsw
        omega
      · rw [container_at_swap_other c i sw k hki hksw]
        exact hmain j k hbj hji hkid

/-- After the swap, the grandparent condition holds at the new index sw:
its parent (= i, now holding the old child value) compares false against
both of sw's children. -/
theorem down_step_aux {lt : α → α → Bool} (hS : IsSWO lt) (b i sw : Nat)
    (c : List α) (hsw : isChildIdx i sw c.length) (hbi : b ≤ i)
    (hmain : ∀ j k, b ≤ j → j ≠ i → isChildIdx j k c.length →
      lt (container_at c j) (container_at c k) = false) :
    ∀ k, isChildIdx sw k (swap c i sw).length →
      lt (container_at (swap c i sw) (get_parent_index sw))
        (container_at (swap c i sw) k) = false := by
  have hswn : sw < c.length := hsw.2
  have hisw : i < sw := isChildIdx_lt _ _ _ hsw
  have hin : i < c.length := lt_trans hisw hswn
  intro k hkid
  rw [swap_length] at hkid
  have hpsw : i = get_parent_index sw := isChildIdx_parent _ _ _ hsw
  have hswk : sw < k := isChildIdx_lt _ _ _ hkid
  rw [← hpsw, container_at_swap_left c i sw hin hswn,
    container_at_swap_other c i sw k (by omega) (by omega)]
  exact hmain sw k (by omega) (by omega) hkid

/-- Floyd sift-down correctness: if every heap edge with parent at or above
b holds except possibly at i itself (plus the grandparent condition at i
when i > b), then after bubble_down(i) every heap edge with parent at or
above b holds. -/
theorem bubble_down_heapFrom {lt : α → α → Bool} (hS : IsSWO lt) (b : Nat)
    (c : List α) (i : Nat) :
    b ≤ i →
    (∀ j k, b ≤ j → j ≠ i → isChildIdx j k c.length →
      lt (container_at c j) (container_at c k) = false) →
    (b < i → ∀ k, isChildIdx i k c.length →
      lt (container_at c (get_parent_index i)) (container_at c k) = false) →
    HeapFrom lt b (bubble_down lt c i) := by
  induction c, i using bubble_down.induct lt with
  | case1 c i h1 h2 h3 ih =>
    intro hbi hmain haux
    rw [bubble_down, dif_pos h1, dif_pos h2, if_pos h3]
    simp only [has_left_child, has_right_child, decide_eq_true_eq,
      Bool.and_eq_true] at h1 h2
    have hswc : isChildIdx i (get_right_child_index i) c.length :=
      ⟨Or.inr rfl, h2.1⟩
    have hbR : b ≤ get_right_child_index i := by
      simp only [get_right_child_index]; omega
    have hbest : ∀ k, isChildIdx i k c.length → k ≠ get_right_child_index i →
        lt (container_at c (get_right_child_index i)) (container_at c k) = false := by
      intro k hk hne
      have : k = get_left_child_index i := by
        rcases hk.1 with h | h
        · exact h
        · exact absurd h hne
      rw [this]
      exact hS.asymm _ _ h2.2
    exact ih hbR (down_step_main hS b i _ c hswc hbi hmain haux hbest h3)
      (fun _ => down_step_aux hS b i _ c hswc hbi hmain)
  | case2 c i h1 h2 h3 =>
    intro hbi hmain haux
    rw [bubble_down, dif_pos h1, dif_pos h2, if_neg h3]
    simp only [Bool.not_eq_true] at h3
    simp only [has_left_child, has_right_child, decide_eq_true_eq,
      Bool.and_eq_true] at h1 h2
    intro j k hbj hkid
    by_cases hji : j = i
    · subst hji
      rcases hkid.1 with hk | hk
      · rw [hk]
        cases hv : lt (container_at c j) (container_at c (get_left_child_index j)) with
        | false => rfl
        | true =>
          have h4 := hS.trans _ _ _ hv h2.2
          rw [h4] at h3
          cases h3
      · rw [hk]; exact h3
    · exact hmain j k hbj hji hkid
  | case3 c i h1 h2 h3 ih =>
    intro hbi hmain haux
    rw [bubble_down, dif_pos h1, dif_neg h2, if_pos h3]
    simp only [Bool.not_eq_true, Bool.and_eq_false_iff] at h2
    have h1b : get_left_child_index i < c.length := by
      simpa [has_left_child, decide_eq_true_eq] using h1
    have hswc : isChildIdx i (get_left_child_index i) c.length :=
      ⟨Or.inl rfl, h1b⟩
    have hbL : b ≤ get_left_child_index i := by
      simp only [get_left_child_index]; omega
    have hbest : ∀ k, isChildIdx i k c.length → k ≠ get_left_child_index i →
        lt (container_at c (get_left_child_index i)) (container_at c k) = false := by
      intro k hk hne
      have hkr : k = get_right_child_index i := by
        rcases hk.1 with h | h
        · exact absurd h hne
        · exact h
      rcases h2 with h2 | h2
      · exfalso
        rw [hkr] at hk
        simp [has_right_child, hk.2] at h2
      · rw [hkr]; exact h2
    exact ih hbL (down_step_main hS b i _ c hswc hbi hmain haux hbest h3)
      (fun _ => down_step_aux hS b i _ c hswc hbi hmain)
  | case4 c i h1 h2 h3 =>
    intro hbi hmain haux
    rw [bubble_down, dif_pos h1, dif_neg h2, if_neg h3]
    simp only [Bool.not_eq_true] at h3
    simp only [Bool.not_eq_true, Bool.and_eq_false_iff] at h2
    intro j k hbj hkid
    by_cases hji : j = i
    · subst hji
      rcases hkid.1 with hk | hk
      · rw [hk]; exact h3
      · rw [hk]
        have hR : has_right_child j c.length = true := by
          simp only [has_right_child, decide_eq_true_eq]
          rw [← hk]
          exact hkid.2
        rcases h2 with h2 | h2
        · rw [hR] at h2; cases h2
        · exact hS.negtrans _ _ _ h3 h2
    · exact hmain j k hbj hji hkid
  | case5 c i h1 =>
    intro hbi hmain haux
    rw [bubble_down, dif_neg h1]
    simp only [has_left_child, decide_eq_true_eq, Bool.not_eq_true,
      decide_eq_false_iff_not, not_lt] at h1
    intro j k hbj hkid
    by_cases hji : j = i
    · subst hji
      exfalso
      have hk := hkid.2
      rcases hkid.1 with h | h <;>
        simp only [get_left_child_index, get_right_child_index] at h h1 <;> omega
    · exact hmain j k hbj hji hkid

theorem heapProp_nil (lt : α → α → Bool) : HeapProp lt ([] : List α) := by
  intro j k _ hkid
  exact absurd hkid.2 (by simp)

theorem heapFrom_of_ge (lt : α → α → Bool) (c : List α) (b : Nat)
    (hb : c.length ≤ b) : HeapFrom lt b c := by
  intro j k hbj hkid
  exfalso
  have h1 := hkid.2
  have h2 := isChildIdx_lt _ _ _ hkid
  omega

theorem heapifyLoop_perm (lt : α → α → Bool) (c : List α) (i : Int) :
    (heapifyLoop lt c i).Perm c := by
  induction c, i using heapifyLoop.induct lt with
  | case1 c i h => rw [heapifyLoop, if_pos h]
  | case2 c i h ih =>
    rw [heapifyLoop, if_neg h]
    exact ih.trans (bubble_down_perm lt c i.toNat)

theorem heapifyLoop_length (lt : α → α → Bool) (c : List α) (i : Int) :
    (heapifyLoop lt c i).length = c.length :=
  (heapifyLoop_perm lt c i).length_eq

theorem heapifyLoop_heapProp {lt : α → α → Bool} (hS : IsSWO lt) :
    ∀ (i : Nat) (c : List α), HeapFrom lt (i + 1) c →
      HeapProp lt (heapifyLoop lt c (i : Int)) := by
  intro i
  induction i with
  | zero =>
    intro c hc
    rw [heapifyLoop, if_neg (by omega)]
    rw [heapifyLoop, if_pos (by omega)]
    have h0 : ((0 : Nat) : Int).toNat = 0 := by omega
    rw [h0]
    refine bubble_down_heapFrom hS 0 c 0 (le_refl 0) ?_ ?_
    · intro j k hbj hji hkid
      exact hc j k (by omega) hkid
    · intro h; omega
  | succ m ih =>
    intro c hc
    rw [heapifyLoop, if_neg (by omega)]
    have h1 : ((m + 1 : Nat) : Int).toNat = m + 1 := by omega
    have h2 : ((m + 1 : Nat) : Int) - 1 = (m : Int) := by push_cast; ring
    rw [h1, h2]
    refine ih (bubble_down lt c (m + 1)) ?_
    have hdown : HeapFrom lt (m + 1) (bubble_down lt c (m + 1)) := by
      refine bubble_down_heapFrom hS (m + 1) c (m + 1) (le_refl _) ?_ ?_
      · intro j k hbj hji hkid
        exact hc j k (by omega) hkid
      · intro h; omega
    intro j k hbj hkid
    exact hdown j k (by omega) hkid

theorem heapifyInit_zero : heapifyInit 0 = -1 := by decide

theorem heapifyInit_pos (n : Nat) (h1 : 1 ≤ n) (h2 : n ≤ 2 ^ 31) :
    heapifyInit n = ((n - 1 : Nat) : Int) := by
  have e1 : (n + (2 ^ 64 - 1)) % 2 ^ 64 = n - 1 := by omega
  have e2 : (n - 1) % 2 ^ 32 = n - 1 := by omega
  rw [heapifyInit, e1, e2, if_pos (by omega)]

theorem heapify_heapProp {lt : α → α → Bool} (hS : IsSWO lt) (xs : List α)
    (hlen : xs.length ≤ 2 ^ 31) : HeapProp lt (heapify lt xs) := by
  by_cases h0 : xs.length = 0
  · have hnil : xs = [] := List.length_eq_zero.mp h0
    subst hnil
    rw [heapify]
    rw [show heapifyInit ([] : List α).length = -1 from heapifyInit_zero]
    rw [heapifyLoop, if_pos (by omega)]
    exact heapProp_nil lt
  · rw [heapify, heapifyInit_pos xs.length (by omega) hlen]
    refine heapifyLoop_heapProp hS (xs.length - 1) xs ?_
    exact heapFrom_of_ge lt xs (xs.length - 1 + 1) (by omega)

theorem heapify_perm (lt : α → α → Bool) (xs : List α) :
    (heapify lt xs).Perm xs := heapifyLoop_perm lt xs (heapifyInit xs.length)

theorem bubble_upLoop_some_mono (lt : α → α → Bool) :
    ∀ (fuel fuel2 : Nat) (c : List α) (i : Nat) (r : List α),
      bubble_upLoop lt fuel c i = some r → fuel ≤ fuel2 →
      bubble_upLoop lt fuel2 c i = some r := by
  intro fuel
  induction fuel with
  | zero => intro fuel2 c i r h; cases h
  | succ f ih =>
    intro fuel2 c i r h hle
    obtain ⟨f2, rfl⟩ : ∃ f2, fuel2 = f2 + 1 := ⟨fuel2 - 1, by omega⟩
    rw [bubble_upLoop] at h
    rw [bubble_upLoop]
    by_cases hg : (has_parent i c.length &&
        lt (container_at c (get_parent_index i)) (container_at c i)) = true
    · rw [if_pos hg] at h
      rw [if_pos hg]
      exact ih f2 _ _ r h (by omega)
    · rw [if_neg hg] at h
      rw [if_neg hg]
      exact h

theorem bubble_upLoop_terminates {lt : α → α → Bool}
    (hirr : ∀ a, lt a a = false) :
    ∀ (m : Nat) (c : List α), ∃ r, bubble_upLoop lt (m + 1) c m = some r ∧
      r.length = c.length := by
  intro m
  induction m using Nat.strong_induction_on with
  | _ m ih =>
    intro c
    rw [bubble_upLoop]
    by_cases hg : (has_parent m c.length &&
        lt (container_at c (get_parent_index m)) (container_at c m)) = true
    · rw [if_pos hg]
      simp only [has_parent, decide_eq_true_eq, Bool.and_eq_true] at hg
      by_cases hm : m = 0
      · exfalso
        subst hm
        have hp0 : get_parent_index 0 = 0 := by simp [get_parent_index]
        rw [hp0, hirr] at hg
        exact Bool.false_ne_true hg.2
      · have hplt : get_parent_index m < m := by
          simp only [get_parent_index]; omega
        obtain ⟨r, hr, hrlen⟩ := ih (get_parent_index m) hplt (swap c m (get_parent_index m))
        refine ⟨r, ?_, ?_⟩
        · exact bubble_upLoop_some_mono lt _ m _ _ r hr (by omega)
        · rw [hrlen, swap_length]
    · rw [if_neg hg]
      exact ⟨c, rfl, rfl⟩

/-- Sift-up correctness: if every heap edge holds except possibly the edge
from m's parent down to m, and m's parent also compares false against m's
children, then the loop terminates in a permutation satisfying the full
heap-order property. -/
theorem bubble_upLoop_heapProp {lt : α → α → Bool} (hS : IsSWO lt) :
    ∀ (m : Nat) (c : List α), m < c.length →
      (∀ j k, isChildIdx j k c.length → ¬(j = get_parent_index m ∧ k = m) →
        lt (container_at c j) (container_at c k) = false) →
      (∀ k, isChildIdx m k c.length →
        lt (container_at c (get_parent_index m)) (container_at c k) = false) →
      ∃ r, bubble_upLoop lt (m + 1) c m = some r ∧ HeapProp lt r ∧ r.Perm c := by
  intro m
  induction m using Nat.strong_induction_on with
  | _ m ih =>
    intro c hmn hmain haux
    rw [bubble_upLoop]
    by_cases hg : (has_parent m c.length &&
        lt (container_at c (get_parent_index m)) (container_at c m)) = true
    · rw [if_pos hg]
      simp only [has_parent, decide_eq_true_eq, Bool.and_eq_true] at hg
      by_cases hm : m = 0
      · exfalso
        subst hm
        have hp0 : get_parent_index 0 = 0 := by simp [get_parent_index]
        rw [hp0, hS.irrefl] at hg
        exact Bool.false_ne_true hg.2
      · have hp := hg.2
        set p := get_parent_index m with hpdef
        have hplt : p < m := by simp only [hpdef, get_parent_index]; omega
        have hpn : p < c.length := lt_trans hplt hmn
        have hchild : isChildIdx p m c.length := by
          refine ⟨?_, hmn⟩
          simp only [hpdef, get_parent_index, get_left_child_index,
            get_right_child_index]
          omega
        -- values in the swapped container
        have vm : container_at (swap c m p) m = container_at c p :=
          container_at_swap_left c m p hmn hpn
        have vp : container_at (swap c m p) p = container_at c m :=
          container_at_swap_right c m p hpn
        have vother : ∀ x, x ≠ m → x ≠ p →
            container_at (swap c m p) x = container_at c x := by
          intro x h1 h2; exact container_at_swap_other c m p x h1 h2
        -- the sibling fact used twice: the moving value compares false
        -- against any child of p other than m
        have hsib : ∀ s, isChildIdx p s c.length → s ≠ m →
            lt (container_at c m) (container_at c s) = false := by
          intro s hs hsm
          cases hv : lt (container_at c m) (container_at c s) with
          | false => rfl
          | true =>
            exfalso
            have hps : lt (container_at c p) (container_at c s) = false :=
              hmain p s hs (fun hand => hsm hand.2)
            have := hS.trans _ _ _ hp hv
            rw [hps] at this
            cases this
        have hmain2 : ∀ j k, isChildIdx j k (swap c m p).length →
            ¬(j = get_parent_index p ∧ k = p) →
            lt (container_at (swap c m p) j) (container_at (swap c m p) k) = false := by
          intro j k hkid hne
          rw [swap_length] at hkid
          by_cases hjp : j = p
          · subst hjp
            by_cases hkm : k = m
            · subst hkm
              rw [vp, vm]
              exact hS.asymm _ _ hp
            · have hklt := isChildIdx_lt _ _ _ hkid
              have hkp : k ≠ p := by omega
              rw [vp, vother k hkm hkp]
              exact hsib k hkid hkm
          · by_cases hjm : j = m
            · subst hjm
              have hkm : k ≠ j := fun h => by
                have := isChildIdx_lt _ _ _ hkid; omega
              have hkp : k ≠ p := by
                have := isChildIdx_lt _ _ _ hkid; omega
              rw [vm, vother k hkm hkp]
              exact haux k hkid
            · rw [vother j hjm hjp]
              by_cases hkm : k = m
              · exfalso
                subst hkm
                have := isChildIdx_parent _ _ _ hkid
                exact hjp (this.trans hpdef.symm)
              · by_cases hkp : k = p
                · exfalso
                  subst hkp
                  have := isChildIdx_parent _ _ _ hkid
                  exact hne ⟨this, rfl⟩
                · rw [vother k hkm hkp]
                  exact hmain j k hkid (fun hand => hkm hand.2)
        have haux2 : ∀ k, isChildIdx p k (swap c m p).length →
            lt (container_at (swap c m p) (get_parent_index p))
              (container_at (swap c m p) k) = false := by
          intro k hkid
          rw [swap_length] at hkid
          by_cases hp0 : p = 0
          · -- the root: its "parent" is itself
            have hpp : get_parent_index p = p := by
              simp only [hp0, get_parent_index]
            rw [hpp, vp]
            by_cases hkm : k = m
            · subst hkm; rw [vm]; exact hS.asymm _ _ hp
            · have hkp : k ≠ p := fun h => by
                have := isChildIdx_lt _ _ _ hkid; omega
              rw [vother k hkm hkp]
              exact hsib k hkid hkm
          · have hpplt : get_parent_index p < p := by
              simp only [get_parent_index]; omega
            have hppm : get_parent_index p ≠ m := by omega
            have hppp : get_parent_index p ≠ p := by omega
            rw [vother _ hppm hppp]
            have hppchild : isChildIdx (get_parent_index p) p c.length :=
              isChildIdx_of_pos p c.length (by omega) hpn
            have e1 : lt (container_at c (get_parent_index p)) (container_at c p) = false :=
              hmain _ p hppchild (fun hand => by omega)
            by_cases hkm : k = m
            · subst hkm; rw [vm]; exact e1
            · have hkp : k ≠ p := fun h => by
                have := isChildIdx_lt _ _ _ hkid; omega
              rw [vother k hkm hkp]
              have e2 : lt (container_at c p) (container_at c k) = false :=
                hmain p k hkid (fun hand => hkm hand.2)
              exact hS.negtrans _ _ _ e1 e2
        obtain ⟨r, hr, hrheap, hrperm⟩ :=
          ih p hplt (swap c m p) (by rw [swap_length]; exact hpn) hmain2 haux2
        refine ⟨r, ?_, hrheap, ?_⟩
        · exact bubble_upLoop_some_mono lt _ m _ _ r hr (by omega)
        · exact hrperm.trans (swap_perm c m p hmn hpn)
    · rw [if_neg hg]
      refine ⟨c, rfl, ?_, List.Perm.refl c⟩
      intro j k hbj hkid
      by_cases hend : j = get_parent_index m ∧ k = m
      · obtain ⟨h1, h2⟩ := hend
        subst h1; subst h2
        simp only [has_parent, decide_eq_true_eq, Bool.and_eq_true, not_and,
          Bool.not_eq_true] at hg
        exact hg hmn
      · exact hmain j k hkid hend

theorem push_heapProp {lt : α → α → Bool} (hS : IsSWO lt) (v : α) (c : List α)
    (hc : HeapProp lt c) :
    ∃ r, push lt v c = some r ∧ HeapProp lt r ∧ r.Perm (c ++ [v]) := by
  have hlen : (c ++ [v]).length - 1 = c.length := by simp
  have hm : c.length < (c ++ [v]).length := by simp
  have hmain : ∀ j k, isChildIdx j k (c ++ [v]).length →
      ¬(j = get_parent_index c.length ∧ k = c.length) →
      lt (container_at (c ++ [v]) j) (container_at (c ++ [v]) k) = false := by
    intro j k hkid hne
    have hkb := hkid.2
    have hjk := isChildIdx_lt _ _ _ hkid
    simp only [List.length_append, List.length_cons, List.length_nil] at hkb
    by_cases hkm : k = c.length
    · exfalso
      exact hne ⟨hkm ▸ isChildIdx_parent _ _ _ hkid, hkm⟩
    · have hkc : k < c.length := by omega
      have hjc : j < c.length := by omega
      rw [container_at_append_left c v j hjc, container_at_append_left c v k hkc]
      refine hc j k (by omega) ⟨hkid.1, hkc⟩
  have haux : ∀ k, isChildIdx c.length k (c ++ [v]).length →
      lt (container_at (c ++ [v]) (get_parent_index c.length))
        (container_at (c ++ [v]) k) = false := by
    intro k hkid
    exfalso
    have h1 := hkid.2
    have h2 := isChildIdx_lt _ _ _ hkid
    simp only [get_left_child_index, get_right_child_index,
      List.length_append, List.length_cons, List.length_nil] at h1 h2 hkid
    rcases hkid.1 with h | h <;> omega
  obtain ⟨r, hr, hrheap, hrperm⟩ :=
    bubble_upLoop_heapProp hS c.length (c ++ [v]) hm hmain haux
  refine ⟨r, ?_, hrheap, hrperm⟩
  rw [push, bubble_up, hlen]
  exact hr

theorem push_terminates {lt : α → α → Bool} (hirr : ∀ a, lt a a = false)
    (v : α) (c : List α) :
    ∃ r, push lt v c = some r ∧ r.length = c.length + 1 := by
  have hlen : (c ++ [v]).length - 1 = c.length := by simp
  obtain ⟨r, hr, hrlen⟩ := bubble_upLoop_terminates hirr c.length (c ++ [v])
  refine ⟨r, ?_, ?_⟩
  · rw [push, bubble_up, hlen]
    exact hr
  · rw [hrlen]; simp

theorem pop_nil (lt : α → α → Bool) : pop lt ([] : List α) = [] := by
  rw [pop]
  simp

theorem pop_length (lt : α → α → Bool) (c : List α) (h : c ≠ []) :
    (pop lt c).length = c.length - 1 := by
  rw [pop, if_neg (by simpa using h)]
  rw [bubble_down_length, List.length_dropLast, swap_length]

theorem pop_heapProp {lt : α → α → Bool} (hS : IsSWO lt) (c : List α)
    (hc : HeapProp lt c) : HeapProp lt (pop lt c) := by
  by_cases hnil : c.isEmpty
  · rw [pop, if_pos hnil]
    exact hc
  · rw [pop, if_neg hnil]
    have hne : c ≠ [] := by simpa using hnil
    have hn : 1 ≤ c.length := by
      cases c with
      | nil => exact absurd rfl hne
      | cons x t => simp
    refine bubble_down_heapFrom hS 0 _ 0 (le_refl 0) ?_ (fun h => absurd h (by omega))
    intro j k hbj hji hkid
    have hlen2 : ((swap c 0 (c.length - 1)).dropLast).length = c.length - 1 := by
      rw [List.length_dropLast, swap_length]
    rw [hlen2] at hkid
    have hkb := hkid.2
    have hjk := isChildIdx_lt _ _ _ hkid
    have hj1 : j + 1 < (swap c 0 (c.length - 1)).length := by
      rw [swap_length]; omega
    have hk1 : k + 1 < (swap c 0 (c.length - 1)).length := by
      rw [swap_length]; omega
    rw [container_at_dropLast _ j hj1, container_at_dropLast _ k hk1,
      container_at_swap_other c 0 (c.length - 1) j (by omega) (by omega),
      container_at_swap_other c 0 (c.length - 1) k (by omega) (by omega)]
    exact hc j k (by omega) ⟨hkid.1, by omega⟩

/-- In a heap, the root compares false against every element: the root is
extremal for the comparator. -/
theorem root_extremal {lt : α → α → Bool} (hS : IsSWO lt) (c : List α)
    (hc : HeapProp lt c) :
    ∀ j, j < c.length → lt (container_at c 0) (container_at c j) = false := by
  intro j
  induction j using Nat.strong_induction_on with
  | _ j ih =>
    intro hj
    by_cases hj0 : j = 0
    · subst hj0; exact hS.irrefl _
    · have hplt : get_parent_index j < j := by
        simp only [get_parent_index]; omega
      have h1 : lt (container_at c 0) (container_at c (get_parent_index j)) = false :=
        ih (get_parent_index j) hplt (by omega)
      have h2 : lt (container_at c (get_parent_index j)) (container_at c j) = false :=
        hc (get_parent_index j) j (by omega) (isChildIdx_of_pos j c.length (by omega) hj)
      exact hS.negtrans _ _ _ h1 h2

theorem is_heapLoop_iff (lt : α → α → Bool) (c : List α) :
    ∀ i, is_heapLoop lt c i = true ↔
      (∀ j k, i ≤ j → isChildIdx j k c.length →
        lt (container_at c j) (container_at c k) = false) := by
  intro i
  induction i using is_heapLoop.induct lt c with
  | case1 i h hvL =>
    rw [is_heapLoop, dif_pos h, if_pos hvL]
    simp only [Bool.false_eq_true, false_iff, not_forall]
    simp only [has_left_child, decide_eq_true_eq, Bool.and_eq_true] at hvL
    exact ⟨i, get_left_child_index i, le_refl i, ⟨Or.inl rfl, hvL.1⟩, by
      rw [hvL.2]; simp⟩
  | case2 i h hvL hvR =>
    rw [is_heapLoop, dif_pos h, if_neg hvL, if_pos hvR]
    simp only [Bool.false_eq_true, false_iff, not_forall]
    simp only [has_right_child, decide_eq_true_eq, Bool.and_eq_true] at hvR
    exact ⟨i, get_right_child_index i, le_refl i, ⟨Or.inr rfl, hvR.1⟩, by
      rw [hvR.2]; simp⟩
  | case3 i h hvL hvR ih =>
    rw [is_heapLoop, dif_pos h, if_neg hvL, if_neg hvR, ih]
    constructor
    · intro hrest j k hij hkid
      by_cases hji : j = i
      · subst hji
        simp only [Bool.not_eq_true, Bool.and_eq_false_iff] at hvL hvR
        rcases hkid.1 with hk | hk
        · rcases hvL with hvL | hvL
          · exfalso; simp [has_left_child, decide_eq_true_eq, hk ▸ hkid.2] at hvL
          · rw [hk]; exact hvL
        · rcases hvR with hvR | hvR
          · exfalso; simp [has_right_child, decide_eq_true_eq, hk ▸ hkid.2] at hvR
          · rw [hk]; exact hvR
      · exact hrest j k (by omega) hkid
    · intro hall j k hij hkid
      exact hall j k (by omega) hkid
  | case4 i h =>
    rw [is_heapLoop, dif_neg h]
    simp only [true_iff]
    intro j k hij hkid
    exfalso
    have h1 := hkid.2
    have h2 := isChildIdx_lt _ _ _ hkid
    omega

theorem is_heap_iff_heapProp (lt : α → α → Bool) (c : List α) :
    is_heap lt c = true ↔ HeapProp lt c := by
  rw [is_heap, is_heapLoop_iff]
  constructor
  · intro h j k hbj hkid; exact h j k (by omega) hkid
  · intro h j k _ hkid; exact h j k (by omega) hkid

theorem band_left {a b : Bool} (h : (a && b) = true) : a = true := by
  cases a <;> simp_all

theorem band_right {a b : Bool} (h : (a && b) = true) : b = true := by
  cases a <;> cases b <;> simp_all

theorem band_intro {a b : Bool} (h1 : a = true) (h2 : b = true) : (a && b) = true := by
  simp_all

theorem left_child_ok (c : List α) (i : Nat) (h : has_left_child i c.length = true) :
    left_child c i = Except.ok (container_at c (get_left_child_index i)) := by
  rw [left_child, if_pos h]

theorem right_child_ok (c : List α) (i : Nat) (h : has_right_child i c.length = true) :
    right_child c i = Except.ok (container_at c (get_right_child_index i)) := by
  rw [right_child, if_pos h]

theorem parent_ok (c : List α) (i : Nat) (h : has_parent i c.length = true) :
    parent c i = Except.ok (container_at c (get_parent_index i)) := by
  rw [parent, if_pos h]

/-- bubble_down never reaches the accessors' throw: the Except version
always returns ok with the plain result. -/
theorem bubble_downE_ok (lt : α → α → Bool) (c : List α) (i : Nat) :
    bubble_downE lt c i = Except.ok (bubble_down lt c i) := by
  induction c, i using bubble_down.induct lt with
  | case1 c i h1 h2 h3 ih =>
    have hR := band_left h2
    have hlr := band_right h2
    rw [bubble_down, dif_pos h1, dif_pos h2, if_pos h3]
    rw [bubble_downE, dif_pos h1, dif_pos hR, left_child_ok c i h1, right_child_ok c i hR]
    dsimp only
    rw [if_pos hlr, if_pos h3]
    exact ih
  | case2 c i h1 h2 h3 =>
    have hR := band_left h2
    have hlr := band_right h2
    rw [bubble_down, dif_pos h1, dif_pos h2, if_neg h3]
    rw [bubble_downE, dif_pos h1, dif_pos hR, left_child_ok c i h1, right_child_ok c i hR]
    dsimp only
    rw [if_pos hlr, if_neg h3]
  | case3 c i h1 h2 h3 ih =>
    rw [bubble_down, dif_pos h1, dif_neg h2, if_pos h3]
    by_cases hR : has_right_child i c.length = true
    · have hlr : ¬ (lt (container_at c (get_left_child_index i))
          (container_at c (get_right_child_index i)) = true) := by
        intro hv
        exact h2 (band_intro hR hv)
      rw [bubble_downE, dif_pos h1, dif_pos hR, left_child_ok c i h1, right_child_ok c i hR]
      dsimp only
      rw [if_neg hlr, if_pos h3]
      exact ih
    · rw [bubble_downE, dif_pos h1, dif_neg hR, if_pos h3]
      exact ih
  | case4 c i h1 h2 h3 =>
    rw [bubble_down, dif_pos h1, dif_neg h2, if_neg h3]
    by_cases hR : has_right_child i c.length = true
    · have hlr : ¬ (lt (container_at c (get_left_child_index i))
          (container_at c (get_right_child_index i)) = true) := by
        intro hv
        exact h2 (band_intro hR hv)
      rw [bubble_downE, dif_pos h1, dif_pos hR, left_child_ok c i h1, right_child_ok c i hR]
      dsimp only
      rw [if_neg hlr, if_neg h3]
    · rw [bubble_downE, dif_pos h1, dif_neg hR, if_neg h3]
  | case5 c i h1 =>
    rw [bubble_down, dif_neg h1, bubble_downE, dif_neg h1]

/-- The bubble_up loop never reaches the parent accessor's throw. -/
theorem bubble_upLoopE_eq (lt : α → α → Bool) :
    ∀ (fuel : Nat) (c : List α) (i : Nat),
      bubble_upLoopE lt fuel c i = (bubble_upLoop lt fuel c i).map Except.ok := by
  intro fuel
  induction fuel with
  | zero => intro c i; rfl
  | succ f ih =>
    intro c i
    rw [bubble_upLoopE, bubble_upLoop]
    by_cases hp : has_parent i c.length = true
    · rw [if_pos hp, parent_ok c i hp, hp, Bool.true_and]
      dsimp only
      by_cases hlt : lt (container_at c (get_parent_index i)) (container_at c i) = true
      · rw [if_pos hlt, if_pos hlt]
        exact ih _ _
      · rw [if_neg hlt, if_neg hlt]
        rfl
    · have hp2 : has_parent i c.length = false := by
        cases h : has_parent i c.length
        · rfl
        · exact absurd h hp
      rw [if_neg hp, hp2, Bool.false_and, if_neg (by simp)]
      rfl

/-- The is_heap scan never reaches the accessors' throws. -/
theorem is_heapLoopE_eq (lt : α → α → Bool) (c : List α) :
    ∀ (i : Nat), is_heapLoopE lt c i = Except.ok (is_heapLoop lt c i) := by
  intro i
  induction i using is_heapLoop.induct lt c with
  | case1 i h hvL =>
    have hL := band_left hvL
    have hv := band_right hvL
    rw [is_heapLoop, dif_pos h, if_pos hvL]
    rw [is_heapLoopE, dif_pos h, if_pos hL, left_child_ok c i hL]
    dsimp only [Except.map]
    rw [hv]
  | case2 i h hvL hvR =>
    have hR := band_left hvR
    have hv := band_right hvR
    rw [is_heapLoop, dif_pos h, if_neg hvL, if_pos hvR]
    rw [is_heapLoopE, dif_pos h]
    have hfirst : (if has_left_child i c.length then
        (left_child c i).map (fun l => lt (container_at c i) l)
        else Except.ok false) = Except.ok false := by
      by_cases hL : has_left_child i c.length = true
      · rw [if_pos hL, left_child_ok c i hL]
        dsimp only [Except.map]
        have : lt (container_at c i) (container_at c (get_left_child_index i)) = false := by
          cases hx : lt (container_at c i) (container_at c (get_left_child_index i))
          · rfl
          · exact absurd (band_intro hL hx) hvL
        rw [this]
      · rw [if_neg hL]
    rw [hfirst]
    dsimp only
    rw [if_pos hR, right_child_ok c i hR]
    dsimp only [Except.map]
    rw [hv]
  | case3 i h hvL hvR ih =>
    rw [is_heapLoop, dif_pos h, if_neg hvL, if_neg hvR]
    rw [is_heapLoopE, dif_pos h]
    have hfirst : (if has_left_child i c.length then
        (left_child c i).map (fun l => lt (container_at c i) l)
        else Except.ok false) = Except.ok false := by
      by_cases hL : has_left_child i c.length = true
      · rw [if_pos hL, left_child_ok c i hL]
        dsimp only [Except.map]
        have : lt (container_at c i) (container_at c (get_left_child_index i)) = false := by
          cases hx : lt (container_at c i) (container_at c (get_left_child_index i))
          · rfl
          · exact absurd (band_intro hL hx) hvL
        rw [this]
      · rw [if_neg hL]
    have hsecond : (if has_right_child i c.length then
        (right_child c i).map (fun r => lt (container_at c i) r)
        else Except.ok false) = Except.ok false := by
      by_cases hR : has_right_child i c.length = true
      · rw [if_pos hR, right_child_ok c i hR]
        dsimp only [Except.map]
        have : lt (container_at c i) (container_at c (get_right_child_index i)) = false := by
          cases hx : lt (container_at c i) (container_at c (get_right_child_index i))
          · rfl
          · exact absurd (band_intro hR hx) hvR
        rw [this]
      · rw [if_neg hR]
    rw [hfirst]
    dsimp only
    rw [hsecond]
    dsimp only
    exact ih
  | case4 i h =>
    rw [is_heapLoop, dif_neg h, is_heapLoopE, dif_neg h]

/-- The heapify loop never reaches the accessors' throws. -/
theorem heapifyLoopE_eq (lt : α → α → Bool) (c : List α) (i : Int) :
    heapifyLoopE lt c i = Except.ok (heapifyLoop lt c i) := by
  induction c, i using heapifyLoop.induct lt with
  | case1 c i h => rw [heapifyLoop, if_pos h, heapifyLoopE, if_pos h]
  | case2 c i h ih =>
    rw [heapifyLoop, if_neg h, heapifyLoopE, if_neg h, bubble_downE_ok lt c i.toNat]
    exact ih

/-- Every public operation (from any state) keeps the heap-order property
and succeeds, provided the comparator is a strict weak ordering and every
heapify argument fits the int32 index range of the source loop. -/
theorem runOps_heapProp {lt : α → α → Bool} (hS : IsSWO lt) :
    ∀ (ops : List (Op α)) (c : List α), HeapProp lt c →
      (∀ xs, Op.heapify xs ∈ ops → xs.length ≤ 2 ^ 31) →
      ∃ h, runOps lt c ops = some h ∧ HeapProp lt h := by
  intro ops
  induction ops with
  | nil => intro c hc _; exact ⟨c, rfl, hc⟩
  | cons op rest ih =>
    intro c hc hargs
    cases op with
    | push v =>
      obtain ⟨c2, hc2, hheap, _⟩ := push_heapProp hS v c hc
      obtain ⟨h, hh, hhheap⟩ := ih c2 hheap (fun xs hx => hargs xs (by simp [hx]))
      refine ⟨h, ?_, hhheap⟩
      rw [runOps, applyOp, hc2]
      exact hh
    | heapify xs =>
      have hlen : xs.length ≤ 2 ^ 31 := hargs xs (by simp)
      obtain ⟨h, hh, hhheap⟩ := ih (heapify lt xs) (heapify_heapProp hS xs hlen)
        (fun ys hy => hargs ys (by simp [hy]))
      refine ⟨h, ?_, hhheap⟩
      rw [runOps, applyOp]
      simp only [Option.bind_some, heapifyOp]
      exact hh
    | pop =>
      obtain ⟨h, hh, hhheap⟩ := ih (pop lt c) (pop_heapProp hS c hc)
        (fun ys hy => hargs ys (by simp [hy]))
      refine ⟨h, ?_, hhheap⟩
      rw [runOps, applyOp]
      exact hh

/-- Pushing a list of values one at a time from a heap state succeeds,
keeps the heap-order property and appends exactly those values (as a
multiset). -/
theorem runOps_pushes {lt : α → α → Bool} (hS : IsSWO lt) :
    ∀ (vs : List α) (c : List α), HeapProp lt c →
      ∃ r, runOps lt c (vs.map Op.push) = some r ∧ HeapProp lt r ∧
        r.Perm (c ++ vs) := by
  intro vs
  induction vs with
  | nil => intro c hc; exact ⟨c, rfl, hc, by simp⟩
  | cons v rest ih =>
    intro c hc
    obtain ⟨c2, hc2, hheap, hperm⟩ := push_heapProp hS v c hc
    obtain ⟨r, hr, hrheap, hrperm⟩ := ih c2 hheap
    refine ⟨r, ?_, hrheap, ?_⟩
    · rw [List.map_cons, runOps, applyOp, hc2]
      exact hr
    · refine hrperm.trans ?_
      have h1 : (c2 ++ rest).Perm ((c ++ [v]) ++ rest) := hperm.append_right rest
      refine h1.trans ?_
      simp

/-- Pushing a list of values always succeeds and grows the size by one per
push, for any irreflexive comparator. -/
theorem runOps_pushes_length {lt : α → α → Bool} (hirr : ∀ a, lt a a = false) :
    ∀ (vs : List α) (c : List α),
      ∃ r, runOps lt c (vs.map Op.push) = some r ∧
        r.length = c.length + vs.length := by
  intro vs
  induction vs with
  | nil => intro c; exact ⟨c, rfl, by simp⟩
  | cons v rest ih =>
    intro c
    obtain ⟨c2, hc2, hlen⟩ := push_terminates hirr v c
    obtain ⟨r, hr, hrlen⟩ := ih c2
    refine ⟨r, ?_, ?_⟩
    · rw [List.map_cons, runOps, applyOp, hc2]
      exact hr
    · rw [hrlen, hlen]
      simp only [List.length_cons]
      omega

/-- j pops from a state with at least j elements remove exactly j. -/
theorem popN_length (lt : α → α → Bool) :
    ∀ (j : Nat) (c : List α), j ≤ c.length →
      (popN lt j c).length = c.length - j := by
  intro j
  induction j with
  | zero => intro c _; simp [popN]
  | succ m ih =>
    intro c hj
    have hne : c ≠ [] := by
      intro h; subst h; simp at hj
    rw [popN, ih (pop lt c) (by rw [pop_length lt c hne]; omega),
      pop_length lt c hne]
    omega

/-- The descending for loop of heapify, started at a nonnegative index k,
is the left fold of bubble_down over the indices k, k-1, ..., 0. -/
theorem heapifyLoop_eq_foldl (lt : α → α → Bool) :
    ∀ (k : Nat) (c : List α),
      heapifyLoop lt c (k : Int) =
        List.foldl (bubble_down lt) c (List.range (k + 1)).reverse := by
  intro k
  induction k with
  | zero =>
    intro c
    rw [heapifyLoop, if_neg (by omega)]
    rw [heapifyLoop, if_pos (by omega)]
    rw [show List.range 1 = [0] from by rw [List.range_succ]; simp]
    simp only [List.reverse_cons, List.reverse_nil, List.nil_append,
      List.foldl_cons, List.foldl_nil]
    rw [show ((0 : Nat) : Int).toNat = 0 from by omega]
  | succ m ih =>
    intro c
    rw [heapifyLoop, if_neg (by omega)]
    have h1 : ((m + 1 : Nat) : Int).toNat = m + 1 := by omega
    have h2 : ((m + 1 : Nat) : Int) - 1 = ((m : Nat) : Int) := by push_cast; ring
    rw [h1, h2, ih]
    rw [show List.range (m + 1 + 1) = List.range (m + 1) ++ [m + 1] from
      List.range_succ (m + 1)]
    rw [List.reverse_append]
    simp only [List.reverse_cons, List.reverse_nil, List.nil_append,
      List.singleton_append, List.foldl_cons]

/-- heapify is exactly that fold whenever the collection fits the int32
index range (including the empty collection). -/
theorem heapify_eq_foldl (lt : α → α → Bool) (xs : List α)
    (h : xs.length ≤ 2 ^ 31) :
    heapify lt xs =
      List.foldl (bubble_down lt) xs (List.range xs.length).reverse := by
  by_cases h0 : xs.length = 0
  · have hnil : xs = [] := List.length_eq_zero.mp h0
    subst hnil
    rw [heapify, show heapifyInit ([] : List α).length = -1 from heapifyInit_zero,
      heapifyLoop, if_pos (by omega)]
    simp
  · rw [heapify, heapifyInit_pos xs.length (by omega) h,
      heapifyLoop_eq_foldl lt (xs.length - 1) xs,
      show xs.length - 1 + 1 = xs.length from by omega]

theorem container_at_of_mem (c : List α) (x : α) (h : x ∈ c) :
    ∃ j, j < c.length ∧ container_at c j = x := by
  obtain ⟨j, hj, he⟩ := List.getElem_of_mem h
  exact ⟨j, hj, by rw [container_at_eq_getElem c j hj, List.get_eq_getElem, he]⟩

theorem container_at_zero (x : α) (t : List α) : container_at (x :: t) 0 = x := rfl

/-- At index 0 the loop guard of bubble_up compares the root with itself
(the source's has_parent is index < size, and (0 - 1) / 2 = 0 under
truncating division), so under an irreflexive comparator the loop exits
at once without any self-swap. -/
theorem bubble_upLoop_zero {lt : α → α → Bool} (hirr : ∀ a, lt a a = false)
    (fuel : Nat) (c : List α) :
    bubble_upLoop lt (fuel + 1) c 0 = some c := by
  rw [bubble_upLoop]
  rw [if_neg ?_]
  intro hg
  have h1 : get_parent_index 0 = 0 := by simp [get_parent_index]
  rw [h1, hirr] at hg
  have := band_right hg
  cases this

omit [Inhabited α] in
theorem top_cons (x : α) (t : List α) :
    top (x :: t) = Except.ok x := rfl

omit [Inhabited α] in
theorem top_nil : top ([] : List α) = Except.error HeapErr.OutOfBoundsAccess := rfl

end Lemmas

section Claims

/-- C1: for every sequence of public operations (push, heapify, pop, in any
order and with any arguments) applied to an initially empty heap, the
sequence completes and is_heap() returns true afterwards: no parent
compares true against either of its children.  Hypotheses: the comparator
is a strict weak ordering (the C++ requirement on Compare — without
irreflexivity bubble_up need not even terminate), and every heapify
argument fits the int32 loop index of the source (length at most 2^31). -/
theorem claim_C1 {α : Type} [Inhabited α] (lt : α → α → Bool) (hS : IsSWO lt)
    (ops : List (Op α))
    (hargs : ∀ xs, Op.heapify xs ∈ ops → xs.length ≤ 2 ^ 31) :
    ∃ h, runOps lt [] ops = some h ∧ is_heap lt h = true := by
  obtain ⟨h, hh, hheap⟩ := runOps_heapProp hS ops [] (heapProp_nil lt) hargs
  exact ⟨h, hh, (is_heap_iff_heapProp lt h).mpr hheap⟩

theorem claim_C1_witness :
    IsSWO (less (α := Nat)) ∧
    (∀ xs : List Nat, Op.heapify xs ∈
        [Op.push (5 : Nat), Op.push 2, Op.heapify [3, 1, 4], Op.pop, Op.push 0] →
      xs.length ≤ 2 ^ 31) ∧
    ∃ h, runOps less []
        [Op.push (5 : Nat), Op.push 2, Op.heapify [3, 1, 4], Op.pop, Op.push 0] =
          some h ∧
      is_heap less h = true := by
  have hargs : ∀ xs : List Nat, Op.heapify xs ∈
      [Op.push (5 : Nat), Op.push 2, Op.heapify [3, 1, 4], Op.pop, Op.push 0] →
      xs.length ≤ 2 ^ 31 := by
    intro xs hx
    simp at hx
    subst hx
    decide
  exact ⟨less_isSWO, hargs, claim_C1 less less_isSWO _ hargs⟩

/-- C2 counterexample: with the default comparator less, heapify([5,3,8,1,9,2])
does NOT leave 1 on top — the structure is a max-heap and top() is 9, so
the claim's min-heap reading is false at this input. -/
theorem claim_C2_counterexample :
    ¬ (top (heapify less [5, 3, 8, 1, 9, 2]) = Except.ok (1 : Nat)) := by
  have h : heapify less [5, 3, 8, 1, 9, 2] = [9, 5, 8, 1, 3, 2] := by
    simp [heapify, heapifyLoop, heapifyInit, bubble_down, has_left_child,
      has_right_child, get_left_child_index, get_right_child_index,
      container_at, swap, less, has_parent, get_parent_index]
  rw [h]
  intro hx
  simp [top_cons] at hx

/-- C2 [amended]: with the default comparator (the element type's natural
less-than) the heap is a MAX-heap: after heapify([5,3,8,1,9,2]), top()
returns 9, and repeatedly reading top() then calling pop() until empty
yields the non-increasing sequence 9,8,5,3,2,1. -/
theorem claim_C2 :
    top (heapify less [5, 3, 8, 1, 9, 2]) = Except.ok (9 : Nat) ∧
    drain less (heapify less [5, 3, 8, 1, 9, 2]) = [9, 8, 5, 3, 2, 1] := by
  have h : heapify less [5, 3, 8, 1, 9, 2] = [9, 5, 8, 1, 3, 2] := by
    simp [heapify, heapifyLoop, heapifyInit, bubble_down, has_left_child,
      has_right_child, get_left_child_index, get_right_child_index,
      container_at, swap, less, has_parent, get_parent_index]
  rw [h]
  refine ⟨rfl, ?_⟩
  simp [drain, drainLoop, top, pop, bubble_down, swap, container_at,
    has_left_child, has_right_child, get_left_child_index,
    get_right_child_index, less]

/-- C3: heapify ignores the previous heap state entirely (clear + assign),
equals — for any collection within the int32 index range, including the
empty one — the left fold of sift-down over the indices n-1, ..., 1, 0 in
strictly decreasing order starting from the input in its given order, and
concretely pushing 10 then heapifying [1,2,3] leaves size 3 with 10 gone. -/
theorem claim_C3 :
    (∀ (α : Type) [Inhabited α] (lt : α → α → Bool) (c c2 xs : List α),
      heapifyOp lt c xs = heapifyOp lt c2 xs) ∧
    (∀ (α : Type) [Inhabited α] (lt : α → α → Bool) (c xs : List α),
      xs.length ≤ 2 ^ 31 →
      heapifyOp lt c xs =
        List.foldl (bubble_down lt) xs (List.range xs.length).reverse) ∧
    (∃ c : List Nat, push less 10 [] = some c ∧
      size (heapifyOp less c [1, 2, 3]) = 3 ∧
      ¬ (10 ∈ heapifyOp less c [1, 2, 3])) := by
  refine ⟨fun α _ lt c c2 xs => rfl, fun α _ lt c xs h => heapify_eq_foldl lt xs h, ?_⟩
  refine ⟨[10], ?_, ?_, ?_⟩
  · simp [push, bubble_up, bubble_upLoop, has_parent, get_parent_index,
      container_at, less]
  · simp [heapifyOp, heapify, heapifyLoop, heapifyInit, bubble_down,
      has_left_child, has_right_child, get_left_child_index,
      get_right_child_index, container_at, swap, less, size]
  · simp [heapifyOp, heapify, heapifyLoop, heapifyInit, bubble_down,
      has_left_child, has_right_child, get_left_child_index,
      get_right_child_index, container_at, swap, less]

theorem claim_C3_witness :
    (([2, 1] : List Nat).length ≤ 2 ^ 31) ∧
    heapifyOp less [7] [2, 1] =
      List.foldl (bubble_down less) [2, 1]
        (List.range ([2, 1] : List Nat).length).reverse :=
  ⟨by decide, claim_C3.2.1 Nat less [7] [2, 1] (by decide)⟩

/-- C4: pop() on an empty heap is a no-op (no failure, state unchanged);
on a non-empty heap it is exactly: swap first and last, drop the last,
sift down from index 0 — and the size decreases by exactly one. -/
theorem claim_C4 {α : Type} [Inhabited α] (lt : α → α → Bool) :
    pop lt ([] : List α) = [] ∧
    ∀ c : List α, c ≠ [] →
      pop lt c = bubble_down lt ((swap c 0 (c.length - 1)).dropLast) 0 ∧
      (pop lt c).length + 1 = c.length := by
  refine ⟨pop_nil lt, ?_⟩
  intro c hc
  constructor
  · rw [pop, if_neg (by simpa using hc)]
  · rw [pop_length lt c hc]
    have h1 : 0 < c.length := List.length_pos.mpr hc
    omega

theorem claim_C4_witness :
    (([4, 7] : List Nat) ≠ []) ∧
    (pop less ([4, 7] : List Nat) =
      bubble_down less
        ((swap ([4, 7] : List Nat) 0 (([4, 7] : List Nat).length - 1)).dropLast) 0 ∧
    (pop less ([4, 7] : List Nat)).length + 1 = ([4, 7] : List Nat).length) :=
  ⟨by simp, (claim_C4 less).2 [4, 7] (by simp)⟩

/-- C5: for every collection and every permutation of it, building a heap
by pushing the elements one at a time and building it by a single heapify
of the collection yield the same multiset of elements and the same top()
(for the default comparator of a linear order; the collection must fit
the int32 index range of heapify's loop). -/
theorem claim_C5 {α : Type} [Inhabited α] [LinearOrder α] (xs ys : List α)
    (hlen : xs.length ≤ 2 ^ 31) (hperm : ys.Perm xs) :
    ∃ p, runOps less [] (ys.map Op.push) = some p ∧
      p.Perm xs ∧ (heapify less xs).Perm xs ∧
      top p = top (heapify less xs) := by
  obtain ⟨p, hp, hpheap, hpperm⟩ := runOps_pushes less_isSWO ys [] (heapProp_nil less)
  have hpy : p.Perm ys := by simpa using hpperm
  have hppx : p.Perm xs := hpy.trans hperm
  have hH : (heapify less xs).Perm xs := heapify_perm less xs
  have hHheap : HeapProp less (heapify less xs) := heapify_heapProp less_isSWO xs hlen
  refine ⟨p, hp, hppx, hH, ?_⟩
  have hplen : p.length = xs.length := hppx.length_eq
  have hHlen : (heapify less xs).length = xs.length := hH.length_eq
  by_cases hnil : xs = []
  · subst hnil
    have h1 : p = [] := List.length_eq_zero.mp (by rw [hplen]; rfl)
    have h2 : heapify less ([] : List α) = [] :=
      List.length_eq_zero.mp (by rw [hHlen]; rfl)
    rw [h1, h2]
  · have hxs : 0 < xs.length := List.length_pos.mpr hnil
    obtain ⟨p0, pt, rfl⟩ : ∃ p0 pt, p = p0 :: pt := by
      cases p with
      | nil => rw [← hplen] at hxs; simp at hxs
      | cons a b => exact ⟨a, b, rfl⟩
    obtain ⟨h0, ht, hHc⟩ : ∃ h0 ht, heapify less xs = h0 :: ht := by
      cases hc : heapify less xs with
      | nil => rw [hc] at hHlen; simp at hHlen; omega
      | cons a b => exact ⟨a, b, rfl⟩
    rw [hHc, top_cons, top_cons]
    have hP0 := root_extremal less_isSWO (p0 :: pt) hpheap
    have hH0 := root_extremal less_isSWO (h0 :: ht) (hHc ▸ hHheap)
    have hh0x : h0 ∈ xs := hH.mem_iff.mp (by rw [hHc]; simp)
    have hh0p : h0 ∈ p0 :: pt := hppx.mem_iff.mpr hh0x
    have hp0x : p0 ∈ xs := hppx.mem_iff.mp (by simp)
    have hp0H : p0 ∈ h0 :: ht := by
      rw [← hHc]
      exact hH.mem_iff.mpr hp0x
    obtain ⟨j, hj, hjv⟩ := container_at_of_mem _ _ hh0p
    obtain ⟨j2, hj2, hjv2⟩ := container_at_of_mem _ _ hp0H
    have e1 : less p0 h0 = false := by
      have hx := hP0 j hj
      rw [hjv, container_at_zero] at hx
      exact hx
    have e2 : less h0 p0 = false := by
      have hx := hH0 j2 hj2
      rw [hjv2, container_at_zero] at hx
      exact hx
    have le1 : h0 ≤ p0 := by
      simp only [less, decide_eq_false_iff_not, not_lt] at e1
      exact e1
    have le2 : p0 ≤ h0 := by
      simp only [less, decide_eq_false_iff_not, not_lt] at e2
      exact e2
    rw [le_antisymm le2 le1]

theorem claim_C5_witness :
    (([5, 3, 8, 1, 9, 2] : List Nat).length ≤ 2 ^ 31) ∧
    (([2, 9, 1, 8, 3, 5] : List Nat).Perm [5, 3, 8, 1, 9, 2]) ∧
    ∃ p, runOps less [] (([2, 9, 1, 8, 3, 5] : List Nat).map Op.push) = some p ∧
      p.Perm [5, 3, 8, 1, 9, 2] ∧
      (heapify less ([5, 3, 8, 1, 9, 2] : List Nat)).Perm [5, 3, 8, 1, 9, 2] ∧
      top p = top (heapify less ([5, 3, 8, 1, 9, 2] : List Nat)) :=
  ⟨by decide, by decide,
    claim_C5 [5, 3, 8, 1, 9, 2] [2, 9, 1, 8, 3, 5] (by decide) (by decide)⟩

/-- C6: the internal IndexUnavailable failure (the out_of_range throw in
left_child, right_child and parent) is unreachable from every public
operation: with the accessors embedded as Except computations exactly as
the source calls them, bubble_down, the bubble_up loop, is_heap, push, pop
and heapify all return ok with the plain results — the error is never
produced, for any comparator, state and arguments. -/
theorem claim_C6 {α : Type} [Inhabited α] (lt : α → α → Bool) :
    (∀ (c : List α) (i : Nat),
      bubble_downE lt c i = Except.ok (bubble_down lt c i)) ∧
    (∀ (fuel : Nat) (c : List α) (i : Nat),
      bubble_upLoopE lt fuel c i = (bubble_upLoop lt fuel c i).map Except.ok) ∧
    (∀ c : List α, is_heapE lt c = Except.ok (is_heap lt c)) ∧
    (∀ (v : α) (c : List α), pushE lt v c = (push lt v c).map Except.ok) ∧
    (∀ c : List α, popE lt c = Except.ok (pop lt c)) ∧
    (∀ xs : List α, heapifyE lt xs = Except.ok (heapify lt xs)) := by
  refine ⟨bubble_downE_ok lt, bubble_upLoopE_eq lt, ?_, ?_, ?_, ?_⟩
  · intro c
    rw [is_heapE, is_heap]
    exact is_heapLoopE_eq lt c 0
  · intro v c
    rw [pushE, push, bubble_up]
    exact bubble_upLoopE_eq lt _ _ _
  · intro c
    rw [popE, pop]
    by_cases h : c.isEmpty
    · rw [if_pos h, if_pos h]
    · rw [if_neg h, if_neg h]
      exact bubble_downE_ok lt _ 0
  · intro xs
    rw [heapifyE, heapify]
    exact heapifyLoopE_eq lt xs _

/-- C7: under an irreflexive comparator every push succeeds (the sift-up
loop terminates) and grows size() by exactly one, and k pushes from empty
followed by j pops with j at most k leave size() = k - j. -/
theorem claim_C7 {α : Type} [Inhabited α] (lt : α → α → Bool)
    (hirr : ∀ a, lt a a = false) :
    (∀ (v : α) (c : List α), ∃ r, push lt v c = some r ∧ size r = size c + 1) ∧
    (∀ (vs : List α) (j : Nat), j ≤ vs.length →
      ∃ h, runOps lt [] (vs.map Op.push) = some h ∧
        size (popN lt j h) = vs.length - j) := by
  constructor
  · intro v c
    obtain ⟨r, hr, hlen⟩ := push_terminates hirr v c
    exact ⟨r, hr, by simpa [size] using hlen⟩
  · intro vs j hj
    obtain ⟨h, hh, hlen⟩ := runOps_pushes_length hirr vs []
    have hlen2 : h.length = vs.length := by simpa using hlen
    refine ⟨h, hh, ?_⟩
    rw [size, popN_length lt j h (by omega)]
    omega

theorem claim_C7_witness :
    (∀ a : Nat, less a a = false) ∧
    (2 ≤ ([4, 1, 3] : List Nat).length) ∧
    ∃ h, runOps less [] (([4, 1, 3] : List Nat).map Op.push) = some h ∧
      size (popN less 2 h) = ([4, 1, 3] : List Nat).length - 2 := by
  have hirr : ∀ a : Nat, less a a = false := fun a => by simp [less]
  exact ⟨hirr, by decide, (claim_C7 less hirr).2 [4, 1, 3] 2 (by decide)⟩

/-- C8 counterexample: top() invoked on an empty heap does not fail with
EmptyHeap — the source performs the unchecked front() access (an undefined
out-of-bounds read, a distinct outcome in the model), and no EmptyHeap
condition exists anywhere in the code. -/
theorem claim_C8_counterexample :
    ¬ (top ([] : List Nat) = Except.error HeapErr.EmptyHeap) := by
  rw [top_nil]
  simp

/-- C8 [amended]: top() on a non-empty heap returns a read-only view of
elements[0] without mutating the heap (it is a pure observer); invoked on
an empty heap it performs the undefined out-of-bounds front() access
rather than a defined EmptyHeap failure. -/
theorem claim_C8 :
    (∀ (α : Type) (x : α) (c : List α), top (x :: c) = Except.ok x) ∧
    (∀ (α : Type), top ([] : List α) = Except.error HeapErr.OutOfBoundsAccess) :=
  ⟨fun _ _ _ => rfl, fun _ => rfl⟩

/-- C9: sift-up terminates for every start index under an irreflexive
comparator: the source's has_parent(i) is i < size, so the root of a
non-empty heap is treated as having a parent, the truncating division
gives parent(0) = (0-1)/2 = 0, and the loop at index 0 compares the root
against itself — which is false under irreflexivity, so the loop stops at
once and no self-swap of the root ever occurs. -/
theorem claim_C9 {α : Type} [Inhabited α] (lt : α → α → Bool)
    (hirr : ∀ a, lt a a = false) :
    get_parent_index_i32 0 = 0 ∧
    (∀ (c : List α) (i : Nat), ∃ r, bubble_up lt c i = some r) ∧
    (∀ (fuel : Nat) (c : List α), bubble_upLoop lt (fuel + 1) c 0 = some c) := by
  refine ⟨by decide, ?_, fun fuel c => bubble_upLoop_zero hirr fuel c⟩
  intro c i
  obtain ⟨r, hr, _⟩ := bubble_upLoop_terminates hirr i c
  exact ⟨r, hr⟩

theorem claim_C9_witness :
    (∀ a : Nat, less a a = false) ∧
    (∃ r, bubble_up less ([3, 5] : List Nat) 1 = some r) ∧
    bubble_upLoop less (0 + 1) ([3, 5] : List Nat) 0 = some [3, 5] := by
  have hirr : ∀ a : Nat, less a a = false := fun a => by simp [less]
  exact ⟨hirr, (claim_C9 less hirr).2.1 [3, 5] 1, (claim_C9 less hirr).2.2 0 [3, 5]⟩

/-- C10: heapify with an empty collection leaves the heap empty for every
prior state: size() - 1 underflows the unsigned size type and narrows to
the int32 value -1, the descending loop body never runs (the loop is the
identity for every negative index), the Except embedding completes without
error, and is_heap() on the result is true. -/
theorem claim_C10 {α : Type} [Inhabited α] (lt : α → α → Bool) :
    heapifyInit 0 = -1 ∧
    (∀ (c : List α) (i : Int), i < 0 → heapifyLoop lt c i = c) ∧
    (∀ c : List α, heapifyOp lt c [] = [] ∧
      heapifyE lt ([] : List α) = Except.ok [] ∧
      is_heap lt (heapifyOp lt c []) = true) := by
  have hloop : ∀ (c : List α) (i : Int), i < 0 → heapifyLoop lt c i = c := by
    intro c i h
    rw [heapifyLoop, if_pos h]
  have hempty : heapify lt ([] : List α) = [] := by
    rw [heapify, show heapifyInit ([] : List α).length = -1 from heapifyInit_zero]
    exact hloop [] (-1) (by decide)
  refine ⟨heapifyInit_zero, hloop, ?_⟩
  intro c
  refine ⟨by rw [heapifyOp]; exact hempty, ?_, ?_⟩
  · rw [heapifyE, heapifyLoopE_eq, ← heapify, hempty]
  · rw [heapifyOp, hempty]
    rw [is_heap, is_heapLoop, dif_neg (by simp)]

theorem claim_C10_witness :
    ((-1 : Int) < 0) ∧ heapifyLoop less ([2, 9] : List Nat) (-1) = [2, 9] :=
  ⟨by decide, (claim_C10 less).2.1 [2, 9] (-1) (by decide)⟩

end Claims

end GenericHeap
